import Mathlib

/-!
Shallow embedding of the raytracer's stochastic/geometric core
(`src/vec3.rs`, `src/sphere.rs`, `src/material.rs`, `src/camera.rs`,
`src/main.rs`).  Floating-point `f64` arithmetic is modelled over the
real numbers; `f64::INFINITY` as an upper search bound is modelled by
`⊤ : WithTop ℝ`; the thread-local random sources are modelled as
explicit sample oracles passed to each call.
-/

open Classical

namespace RT

/-- The 3-component vector of `src/vec3.rs` (`Vec3`, also used as
`Point3` and `Color`). -/
structure Vec3 where
  x : ℝ
  y : ℝ
  z : ℝ

namespace Vec3

/-- Component-wise addition (`impl Add for Vec3`). -/
noncomputable instance : Add Vec3 := ⟨fun a b => ⟨a.x + b.x, a.y + b.y, a.z + b.z⟩⟩

/-- Component-wise subtraction (`impl Sub for Vec3`). -/
noncomputable instance : Sub Vec3 := ⟨fun a b => ⟨a.x - b.x, a.y - b.y, a.z - b.z⟩⟩

/-- Scalar multiplication (`impl Mul<Vec3> for f64` / `impl Mul<f64> for Vec3`). -/
noncomputable instance : SMul ℝ Vec3 := ⟨fun c v => ⟨c * v.x, c * v.y, c * v.z⟩⟩

/-- Component-wise multiplication (`impl Mul<Vec3> for Vec3`), used for
color attenuation. -/
noncomputable instance : Mul Vec3 := ⟨fun a b => ⟨a.x * b.x, a.y * b.y, a.z * b.z⟩⟩

/-- Division of a vector by a scalar (`impl Div<f64> for Vec3`). -/
noncomputable instance : HDiv Vec3 ℝ Vec3 := ⟨fun v c => ⟨v.x / c, v.y / c, v.z / c⟩⟩

noncomputable instance : Zero Vec3 := ⟨⟨0, 0, 0⟩⟩

/-- `Vec3::dot`. -/
def dot (a b : Vec3) : ℝ := a.x * b.x + a.y * b.y + a.z * b.z

/-- `Vec3::length` — `self.dot(self).sqrt()`. -/
noncomputable def length (v : Vec3) : ℝ := Real.sqrt (v.dot v)

/-- `Vec3::normalized` — `self / self.length()`. -/
noncomputable def normalized (v : Vec3) : Vec3 := v / v.length

/-- `Vec3::near_zero` — all components below `1e-8` in magnitude. -/
def near_zero (v : Vec3) : Prop :=
  |v.x| < 1e-8 ∧ |v.y| < 1e-8 ∧ |v.z| < 1e-8

/-- `Vec3::reflect` — `self - 2.0*self.dot(n)*n`. -/
noncomputable def reflect (v n : Vec3) : Vec3 := v - (2 * v.dot n) • n

/-- `Vec3::refract` — Snell's law via perpendicular/parallel decomposition,
with the cosine clamped to at most 1 and the radicand passed through
absolute value before the square root. -/
noncomputable def refract (v n : Vec3) (eta_rat : ℝ) : Vec3 :=
  let cos_theta := min ((((-1 : ℝ) • v)).dot n) 1
  let r_out_perp := eta_rat • (v + cos_theta • n)
  let r_out_parallel := (-(Real.sqrt |1 - r_out_perp.length ^ 2|)) • n
  r_out_perp + r_out_parallel

end Vec3

/-- Modelled from the spec: `src/ray.rs` is not under `src/`.  Per the
spec's data model, a `Ray` owns an origin `Point3` and a direction
`Vec3`, with `at(t) = origin + t*direction`. -/
structure Ray where
  origin : Vec3
  direction : Vec3

/-- Modelled from the spec: `Ray::at(t) = origin + t*direction`
(`src/ray.rs` is not under `src/`). -/
noncomputable def Ray.at (r : Ray) (t : ℝ) : Vec3 := r.origin + t • r.direction

/-- The three material variants of `src/material.rs` (`Lambertian`,
`Metal`, `Dielectric`).  The `Arc<dyn Scatter>` trait objects of the
code are modelled by this closed tagged union: these are the only
implementers of `Scatter` in the repository. -/
inductive Material where
  | lambertian (albedo : Vec3)
  | metal (albedo : Vec3) (fuzz : ℝ)
  | dielectric (ir : ℝ)

/-- The fresh randomness one `scatter` call may consume: the result of
`Vec3::rand_in_unit_sphere()` and the uniform draw `rng.gen::<f64>()`
of the dielectric branch.  These are the only two random primitives
`src/material.rs` uses. -/
structure ScatterRand where
  unitSphere : Vec3
  uniform : ℝ

/-- The intersection result of `src/hit.rs` (`HitRecord`): hit point,
corrected normal, material at the hit, parametric distance, facing flag. -/
structure HitRecord where
  p : Vec3
  normal : Vec3
  mat : Material
  t : ℝ
  front_face : Bool

/-- Modelled from the spec: `HitRecord::set_face_normal` lives in
`src/hit.rs`, which is not under `src/`.  Per the spec:
`front_face = dot(ray.direction, outward_normal) < 0`; store the normal
as-is if front-facing, negated otherwise. -/
noncomputable def HitRecord.set_face_normal (rec : HitRecord) (r : Ray)
    (outward_normal : Vec3) : HitRecord :=
  let ff : Bool := decide (r.direction.dot outward_normal < 0)
  { rec with
    front_face := ff,
    normal := if ff then outward_normal else (-1 : ℝ) • outward_normal }

/-- `Dielectric::reflectance` — Schlick's approximation. -/
noncomputable def reflectance (cosine ref_idx : ℝ) : ℝ :=
  let r0 := ((1 - ref_idx) / (1 + ref_idx)) ^ 2
  r0 + (1 - r0) * (1 - cosine) ^ 5

/-- The `Scatter` implementations of `src/material.rs`, with the
thread-local randomness supplied as an explicit `ScatterRand`. -/
noncomputable def Material.scatter (m : Material) (rand : ScatterRand)
    (r_in : Ray) (rec : HitRecord) : Option (Vec3 × Ray) :=
  match m with
  | .lambertian albedo =>
      let d := rec.normal + rand.unitSphere.normalized
      let scatter_dir := if d.near_zero then rec.normal else d
      some (albedo, ⟨rec.p, scatter_dir⟩)
  | .metal albedo fuzz =>
      let reflected := (r_in.direction.reflect rec.normal).normalized
      let scattered : Ray := ⟨rec.p, reflected + fuzz • rand.unitSphere⟩
      if scattered.direction.dot rec.normal > 0 then
        some (albedo, scattered)
      else
        none
  | .dielectric ir =>
      let refr_rat := if rec.front_face then 1 / ir else ir
      let unit_dir := r_in.direction.normalized
      let cos_theta := min (((-1 : ℝ) • unit_dir).dot rec.normal) 1
      let sin_theta := Real.sqrt (1 - cos_theta ^ 2)
      let cannot_refr := refr_rat * sin_theta > 1
      let will_refl := rand.uniform < reflectance cos_theta refr_rat
      let dir := if cannot_refr ∨ will_refl then
          unit_dir.reflect rec.normal
        else
          unit_dir.refract rec.normal refr_rat
      some (⟨1, 1, 1⟩, ⟨rec.p, dir⟩)

/-- `Sphere` of `src/sphere.rs`: center, signed radius, shared material. -/
structure Sphere where
  center : Vec3
  radius : ℝ
  mat : Material

/-- The record `Sphere::hit` builds for an accepted root: hit point
`r.at(root)`, placeholder normal, the sphere's material, then
`set_face_normal` with outward normal `(p - center) / radius`
(`src/sphere.rs`, lines 47-58). -/
noncomputable def Sphere.mkRec (s : Sphere) (r : Ray) (root : ℝ) : HitRecord :=
  let p := r.at root
  let rec0 : HitRecord :=
    { p := p, normal := ⟨0, 0, 0⟩, mat := s.mat, t := root, front_face := false }
  rec0.set_face_normal r ((p - s.center) / s.radius)

/-- `oc` of `Sphere::hit` — `r.origin() - self.center`. -/
noncomputable def Sphere.oc (s : Sphere) (r : Ray) : Vec3 := r.origin - s.center

/-- `a` of `Sphere::hit` — `r.direction().length().powi(2)`. -/
noncomputable def Sphere.a (s : Sphere) (r : Ray) : ℝ := r.direction.length ^ 2

/-- `half_b` of `Sphere::hit` — `oc.dot(r.direction())`. -/
noncomputable def Sphere.half_b (s : Sphere) (r : Ray) : ℝ := (s.oc r).dot r.direction

/-- `c` of `Sphere::hit` — `oc.length().powi(2) - self.radius.powi(2)`. -/
noncomputable def Sphere.c (s : Sphere) (r : Ray) : ℝ := (s.oc r).length ^ 2 - s.radius ^ 2

/-- `discriminant` of `Sphere::hit` — `half_b*half_b - a*c`. -/
noncomputable def Sphere.discriminant (s : Sphere) (r : Ray) : ℝ :=
  s.half_b r * s.half_b r - s.a r * s.c r

/-- The smaller quadratic root tried first by `Sphere::hit` —
`(-half_b - sqrtd) / a`. -/
noncomputable def Sphere.root1 (s : Sphere) (r : Ray) : ℝ :=
  (-s.half_b r - Real.sqrt (s.discriminant r)) / s.a r

/-- The larger quadratic root tried second by `Sphere::hit` —
`(-half_b + sqrtd) / a`. -/
noncomputable def Sphere.root2 (s : Sphere) (r : Ray) : ℝ :=
  (-s.half_b r + Real.sqrt (s.discriminant r)) / s.a r

/-- `Sphere::hit` (`src/sphere.rs`).  The upper search bound is a
`WithTop ℝ` so the `f64::INFINITY` passed by `ray_color` is `⊤`.  The
two nested range checks mirror the Rust `mut root` control flow: try
the smaller root first, fall back to the larger, else no hit. -/
noncomputable def Sphere.hit (s : Sphere) (r : Ray) (t_min : ℝ)
    (t_max : WithTop ℝ) : Option HitRecord :=
  if s.discriminant r < 0 then none
  else
    if s.root1 r < t_min ∨ t_max < ((s.root1 r : ℝ) : WithTop ℝ) then
      if s.root2 r < t_min ∨ t_max < ((s.root2 r : ℝ) : WithTop ℝ) then none
      else some (s.mkRec r (s.root2 r))
    else some (s.mkRec r (s.root1 r))

/-- Modelled from the spec: the `World` aggregate lives in `src/hit.rs`,
which is not under `src/`.  Per the spec, it is an insertion-ordered
collection of intersection-capable objects (all of which are spheres in
this repository). -/
abbrev World : Type := List Sphere

/-- Modelled from the spec: the `World::hit` loop of `src/hit.rs`.
Per the spec, iterate all members, keep the best (smallest-`t`) record
found so far, and shrink the upper search bound to that `t`, so later
candidates are accepted only if strictly closer. -/
noncomputable def World.hitAux (r : Ray) (t_min : ℝ) :
    List Sphere → WithTop ℝ → Option HitRecord → Option HitRecord
  | [], _, best => best
  | s :: rest, closest, best =>
    match s.hit r t_min closest with
    | some rec => World.hitAux r t_min rest (rec.t : WithTop ℝ) (some rec)
    | none => World.hitAux r t_min rest closest best

/-- Modelled from the spec: `World`'s implementation of the intersection
protocol (`src/hit.rs` is not under `src/`). -/
noncomputable def World.hit (w : World) (r : Ray) (t_min : ℝ)
    (t_max : WithTop ℝ) : Option HitRecord :=
  World.hitAux r t_min w t_max none

/-- The background gradient of `ray_color` (`src/main.rs`, lines 39-42). -/
noncomputable def background (r : Ray) : Vec3 :=
  let unit_direction := r.direction.normalized
  let t := 0.5 * (unit_direction.y + 1)
  (1 - t) • (⟨1, 1, 1⟩ : Vec3) + t • (⟨0.5, 0.7, 1⟩ : Vec3)

/-- `ray_color` (`src/main.rs`, lines 25-44): the recursive radiance
estimator.  `rand` supplies the fresh randomness of each recursion
level; `depth` is the `u64` bounce budget (`depth <= 0` on a `u64`
means `depth == 0`). -/
noncomputable def ray_color (rand : ℕ → ScatterRand) (r : Ray) (world : World) :
    ℕ → Vec3
  | 0 => ⟨0, 0, 0⟩
  | depth + 1 =>
    match World.hit world r 0.001 ⊤ with
    | some rec =>
      match rec.mat.scatter (rand 0) r rec with
      | some (attenuation, scattered) =>
          attenuation * ray_color (fun n => rand (n + 1)) scattered world depth
      | none => ⟨0, 0, 0⟩
    | none => background r

/-- The framebuffer index computed by the render scheduler for channel
`ch` of pixel `(x, y)` (`src/main.rs`, lines 118-120):
`(IMAGE_HEIGHT - y - 1) * IMAGE_WIDTH * 3 + x * 3 + ch`. -/
def pixelIndex (height width y x ch : ℕ) : ℕ :=
  (height - y - 1) * width * 3 + x * 3 + ch

/-- The horizontal image-plane coordinate the scheduler passes to
`Camera::get_ray` (`src/main.rs`, line 109):
`u = (x + rand_u) / ((IMAGE_WIDTH - 1) as f64)`, with the subtraction
performed on the `u32` width. -/
noncomputable def sample_u (width : ℕ) (x : ℕ) (rand_u : ℝ) : ℝ :=
  ((x : ℝ) + rand_u) / ((width - 1 : ℕ) : ℝ)

/-- The vertical image-plane coordinate the scheduler passes to
`Camera::get_ray` (`src/main.rs`, line 110). -/
noncomputable def sample_v (height : ℕ) (y : ℕ) (rand_v : ℝ) : ℝ :=
  ((y : ℝ) + rand_v) / ((height - 1 : ℕ) : ℝ)

/-- Spec-side definition, following the spec's words for comparison
with the code (section 4.4): the metal outgoing direction is
`reflect(normalize(incoming.direction), normal) + fuzz · p` for the
sampled unit-ball point `p`. -/
noncomputable def metalSpecDir (r_in : Ray) (normal : Vec3) (fuzz : ℝ)
    (p : Vec3) : Vec3 :=
  (r_in.direction.normalized).reflect normal + fuzz • p

/-- A concrete material for the closed-instance evaluations below. -/
def exMat : Material := .lambertian ⟨0, 0, 0⟩

/-- A concrete ray from the origin along `-z`. -/
def exRay : Ray := ⟨⟨0, 0, 0⟩, ⟨0, 0, -1⟩⟩

/-- A concrete unit sphere centered at `(0,0,-2)`, pierced by `exRay`. -/
def exS1 : Sphere := ⟨⟨0, 0, -2⟩, 1, exMat⟩

/-- A concrete unit sphere centered at `(0,0,-5)`, pierced by `exRay`
behind `exS1`. -/
def exS2 : Sphere := ⟨⟨0, 0, -5⟩, 1, exMat⟩

/-- The record `exS1.hit exRay 0 100` produces: front hit at `t = 1`. -/
def exRec1 : HitRecord := ⟨⟨0, 0, -1⟩, ⟨0, 0, 1⟩, exMat, 1, true⟩

/-- The record `exS2.hit exRay 0 100` produces: front hit at `t = 4`. -/
def exRec2 : HitRecord := ⟨⟨0, 0, -4⟩, ⟨0, 0, 1⟩, exMat, 4, true⟩

namespace Vec3

@[simp] theorem add_def (a b : Vec3) : a + b = ⟨a.x + b.x, a.y + b.y, a.z + b.z⟩ := rfl

@[simp] theorem sub_def (a b : Vec3) : a - b = ⟨a.x - b.x, a.y - b.y, a.z - b.z⟩ := rfl

@[simp] theorem smul_def (c : ℝ) (v : Vec3) : c • v = ⟨c * v.x, c * v.y, c * v.z⟩ := rfl

@[simp] theorem mul_def (a b : Vec3) : a * b = ⟨a.x * b.x, a.y * b.y, a.z * b.z⟩ := rfl

@[simp] theorem div_def (v : Vec3) (c : ℝ) : v / c = ⟨v.x / c, v.y / c, v.z / c⟩ := rfl

@[simp] theorem zero_def : (0 : Vec3) = ⟨0, 0, 0⟩ := rfl

@[simp] theorem dot_def (a b : Vec3) : a.dot b = a.x * b.x + a.y * b.y + a.z * b.z := rfl

theorem dot_self_nonneg (v : Vec3) : 0 ≤ v.dot v := by
  simp only [dot_def]
  nlinarith [mul_self_nonneg v.x, mul_self_nonneg v.y, mul_self_nonneg v.z]

/-- The length squared equals the dot product of a vector with itself. -/
theorem length_sq (v : Vec3) : v.length ^ 2 = v.dot v :=
  Real.sq_sqrt v.dot_self_nonneg

theorem length_nonneg (v : Vec3) : 0 ≤ v.length := Real.sqrt_nonneg _

theorem dot_self_pos (v : Vec3) (hv : v ≠ 0) : 0 < v.dot v := by
  rcases v with ⟨a, b, c⟩
  by_contra h
  push_neg at h
  have h0 : a * a + b * b + c * c ≤ 0 := by simpa [dot_def] using h
  have ha : a = 0 := by nlinarith [mul_self_nonneg a, mul_self_nonneg b, mul_self_nonneg c]
  have hb : b = 0 := by nlinarith [mul_self_nonneg a, mul_self_nonneg b, mul_self_nonneg c]
  have hc : c = 0 := by nlinarith [mul_self_nonneg a, mul_self_nonneg b, mul_self_nonneg c]
  subst ha hb hc
  exact hv rfl

theorem length_pos (v : Vec3) (hv : v ≠ 0) : 0 < v.length :=
  Real.sqrt_pos.mpr (v.dot_self_pos hv)

end Vec3

theorem HitRecord.set_face_normal_front_face (rec : HitRecord) (r : Ray) (n : Vec3) :
    (rec.set_face_normal r n).front_face = decide (r.direction.dot n < 0) := rfl

theorem HitRecord.set_face_normal_t (rec : HitRecord) (r : Ray) (n : Vec3) :
    (rec.set_face_normal r n).t = rec.t := rfl

theorem HitRecord.set_face_normal_p (rec : HitRecord) (r : Ray) (n : Vec3) :
    (rec.set_face_normal r n).p = rec.p := rfl

theorem HitRecord.set_face_normal_mat (rec : HitRecord) (r : Ray) (n : Vec3) :
    (rec.set_face_normal r n).mat = rec.mat := rfl

theorem HitRecord.set_face_normal_normal (rec : HitRecord) (r : Ray) (n : Vec3) :
    (rec.set_face_normal r n).normal
      = if r.direction.dot n < 0 then n else (-1 : ℝ) • n := by
  unfold HitRecord.set_face_normal
  by_cases h : r.direction.dot n < 0 <;> simp [h]

/-- The corrected normal always opposes the ray direction. -/
theorem HitRecord.set_face_normal_opposes (rec : HitRecord) (r : Ray) (n : Vec3) :
    r.direction.dot (rec.set_face_normal r n).normal ≤ 0 := by
  rw [HitRecord.set_face_normal_normal]
  by_cases h : r.direction.dot n < 0
  · rw [if_pos h]; exact le_of_lt h
  · rw [if_neg h]
    push_neg at h
    have hneg : r.direction.dot ((-1 : ℝ) • n) = -(r.direction.dot n) := by
      simp [Vec3.dot_def, Vec3.smul_def]; ring
    rw [hneg]
    linarith

@[simp] theorem Sphere.mkRec_t (s : Sphere) (r : Ray) (root : ℝ) :
    (s.mkRec r root).t = root := rfl

@[simp] theorem Sphere.mkRec_p (s : Sphere) (r : Ray) (root : ℝ) :
    (s.mkRec r root).p = r.at root := rfl

theorem Sphere.mkRec_front_face (s : Sphere) (r : Ray) (root : ℝ) :
    (s.mkRec r root).front_face
      = decide (r.direction.dot ((r.at root - s.center) / s.radius) < 0) := rfl

theorem Sphere.mkRec_normal (s : Sphere) (r : Ray) (root : ℝ) :
    (s.mkRec r root).normal
      = if r.direction.dot ((r.at root - s.center) / s.radius) < 0 then
          (r.at root - s.center) / s.radius
        else (-1 : ℝ) • ((r.at root - s.center) / s.radius) :=
  HitRecord.set_face_normal_normal _ _ _

/-- `a` is the squared direction length, hence the direction's self
dot product. -/
theorem Sphere.a_eq (s : Sphere) (r : Ray) :
    s.a r = r.direction.dot r.direction := Vec3.length_sq _

theorem Sphere.a_nonneg (s : Sphere) (r : Ray) : 0 ≤ s.a r := sq_nonneg _

/-- `c` rewritten through `length_sq`. -/
theorem Sphere.c_eq (s : Sphere) (r : Ray) :
    s.c r = (s.oc r).dot (s.oc r) - s.radius ^ 2 := by
  unfold Sphere.c
  rw [Vec3.length_sq]

/-- The smaller root never exceeds the larger root (also in the
degenerate `a = 0` case, where both divisions yield the junk value 0). -/
theorem Sphere.root1_le_root2 (s : Sphere) (r : Ray) :
    s.root1 r ≤ s.root2 r := by
  unfold Sphere.root1 Sphere.root2
  rcases lt_or_eq_of_le (s.a_nonneg r) with ha | ha
  · rw [div_le_div_iff ha ha]
    nlinarith [Real.sqrt_nonneg (s.discriminant r)]
  · rw [← ha, div_zero, div_zero]

/-- A negative discriminant yields no hit. -/
theorem Sphere.hit_of_disc_neg {s : Sphere} {r : Ray} (t_min : ℝ) (t_max : WithTop ℝ)
    (h : s.discriminant r < 0) : s.hit r t_min t_max = none := by
  unfold Sphere.hit
  rw [if_pos h]

/-- The smaller root in range yields a hit at the smaller root. -/
theorem Sphere.hit_of_root1 {s : Sphere} {r : Ray} {t_min : ℝ} {t_max : WithTop ℝ}
    (hd : ¬s.discriminant r < 0)
    (h1 : ¬(s.root1 r < t_min ∨ t_max < ((s.root1 r : ℝ) : WithTop ℝ))) :
    s.hit r t_min t_max = some (s.mkRec r (s.root1 r)) := by
  unfold Sphere.hit
  rw [if_neg hd, if_neg h1]

/-- The smaller root out of range but the larger root in range yields a
hit at the larger root. -/
theorem Sphere.hit_of_root2 {s : Sphere} {r : Ray} {t_min : ℝ} {t_max : WithTop ℝ}
    (hd : ¬s.discriminant r < 0)
    (h1 : s.root1 r < t_min ∨ t_max < ((s.root1 r : ℝ) : WithTop ℝ))
    (h2 : ¬(s.root2 r < t_min ∨ t_max < ((s.root2 r : ℝ) : WithTop ℝ))) :
    s.hit r t_min t_max = some (s.mkRec r (s.root2 r)) := by
  unfold Sphere.hit
  rw [if_neg hd, if_pos h1, if_neg h2]

/-- Both roots out of range yields no hit. -/
theorem Sphere.hit_of_no_root {s : Sphere} {r : Ray} {t_min : ℝ} {t_max : WithTop ℝ}
    (h1 : s.root1 r < t_min ∨ t_max < ((s.root1 r : ℝ) : WithTop ℝ))
    (h2 : s.root2 r < t_min ∨ t_max < ((s.root2 r : ℝ) : WithTop ℝ)) :
    s.hit r t_min t_max = none := by
  unfold Sphere.hit
  by_cases hd : s.discriminant r < 0
  · rw [if_pos hd]
  · rw [if_neg hd, if_pos h1, if_pos h2]

/-- Exhaustive case description of a successful `Sphere::hit`. -/
theorem Sphere.hit_some_cases {s : Sphere} {r : Ray} {t_min : ℝ} {t_max : WithTop ℝ}
    {rec : HitRecord} (h : s.hit r t_min t_max = some rec) :
    ¬s.discriminant r < 0 ∧
    ((rec = s.mkRec r (s.root1 r) ∧
        ¬(s.root1 r < t_min ∨ t_max < ((s.root1 r : ℝ) : WithTop ℝ))) ∨
     (rec = s.mkRec r (s.root2 r) ∧
        (s.root1 r < t_min ∨ t_max < ((s.root1 r : ℝ) : WithTop ℝ)) ∧
        ¬(s.root2 r < t_min ∨ t_max < ((s.root2 r : ℝ) : WithTop ℝ)))) := by
  unfold Sphere.hit at h
  split_ifs at h with hd h1 h2
  · exact ⟨hd, Or.inr ⟨(Option.some.inj h).symm, h1, h2⟩⟩
  · exact ⟨hd, Or.inl ⟨(Option.some.inj h).symm, h1⟩⟩

/-- A returned record's `t` lies within the requested interval. -/
theorem Sphere.hit_t_mem {s : Sphere} {r : Ray} {t_min : ℝ} {t_max : WithTop ℝ}
    {rec : HitRecord} (h : s.hit r t_min t_max = some rec) :
    t_min ≤ rec.t ∧ ((rec.t : ℝ) : WithTop ℝ) ≤ t_max := by
  rcases (Sphere.hit_some_cases h).2 with ⟨hrec, h1⟩ | ⟨hrec, _, h2⟩
  · rcases not_or.mp h1 with ⟨hlo, hhi⟩
    subst hrec
    exact ⟨not_lt.mp hlo, not_lt.mp hhi⟩
  · rcases not_or.mp h2 with ⟨hlo, hhi⟩
    subst hrec
    exact ⟨not_lt.mp hlo, not_lt.mp hhi⟩

/-- Shrinking the upper bound to any value still at or above the
returned `t` returns the same record. -/
theorem Sphere.hit_shrink {s : Sphere} {r : Ray} {t_min : ℝ} {t_max : WithTop ℝ}
    {rec : HitRecord} (h : s.hit r t_min t_max = some rec) {c : WithTop ℝ}
    (hc1 : ((rec.t : ℝ) : WithTop ℝ) ≤ c) (hc2 : c ≤ t_max) :
    s.hit r t_min c = some rec := by
  obtain ⟨hd, hcase⟩ := Sphere.hit_some_cases h
  rcases hcase with ⟨hrec, h1⟩ | ⟨hrec, h1, h2⟩
  · subst hrec
    rcases not_or.mp h1 with ⟨hlo, hhi⟩
    refine Sphere.hit_of_root1 hd (not_or.mpr ⟨hlo, not_lt.mpr ?_⟩)
    simpa using hc1
  · subst hrec
    rcases not_or.mp h2 with ⟨hlo2, hhi2⟩
    refine Sphere.hit_of_root2 hd ?_ (not_or.mpr ⟨hlo2, not_lt.mpr ?_⟩)
    · rcases h1 with h1 | h1
      · exact Or.inl h1
      · exact Or.inr (lt_of_le_of_lt hc2 h1)
    · simpa using hc1

/-- Shrinking the upper bound strictly below the returned `t` yields no
hit at all: the sphere has no valid intersection closer than `t`. -/
theorem Sphere.hit_none_below {s : Sphere} {r : Ray} {t_min : ℝ} {t_max : WithTop ℝ}
    {rec : HitRecord} (h : s.hit r t_min t_max = some rec) {c : WithTop ℝ}
    (hc : c < ((rec.t : ℝ) : WithTop ℝ)) (hc2 : c ≤ t_max) :
    s.hit r t_min c = none := by
  obtain ⟨hd, hcase⟩ := Sphere.hit_some_cases h
  have h12 : s.root1 r ≤ s.root2 r := s.root1_le_root2 r
  rcases hcase with ⟨hrec, h1⟩ | ⟨hrec, h1, h2⟩
  · subst hrec
    refine Sphere.hit_of_no_root (Or.inr ?_) (Or.inr ?_)
    · simpa using hc
    · refine lt_of_lt_of_le ?_ (WithTop.coe_le_coe.mpr h12)
      simpa using hc
  · subst hrec
    rcases not_or.mp h2 with ⟨_, hhi2⟩
    refine Sphere.hit_of_no_root ?_ (Or.inr ?_)
    · rcases h1 with h1 | h1
      · exact Or.inl h1
      · exact Or.inr (lt_of_le_of_lt hc2 h1)
    · simpa using hc

/-- A sphere hit is insensitive to which of two nested upper bounds is
used, as long as the record's `t` clears both: hits from a narrower and
a wider query agree. -/
theorem Sphere.hit_agree {s : Sphere} {r : Ray} {t_min : ℝ} {c t_max : WithTop ℝ}
    {rec0 rec' : HitRecord} (hc : c ≤ t_max)
    (h0 : s.hit r t_min c = some rec0) (h' : s.hit r t_min t_max = some rec') :
    rec0 = rec' := by
  have h12 : s.root1 r ≤ s.root2 r := s.root1_le_root2 r
  obtain ⟨_, hcase0⟩ := Sphere.hit_some_cases h0
  obtain ⟨hd, hcase'⟩ := Sphere.hit_some_cases h'
  rcases hcase0 with ⟨hrec0, h01⟩ | ⟨hrec0, h01, h02⟩ <;>
    rcases hcase' with ⟨hrec', h1'⟩ | ⟨hrec', h1', h2'⟩
  · rw [hrec0, hrec']
  · exfalso
    rcases not_or.mp h01 with ⟨hlo, hhi⟩
    rcases h1' with hx | hx
    · exact hlo hx
    · exact absurd (lt_of_le_of_lt hc hx) (not_lt.mpr (not_lt.mp hhi))
  · exfalso
    rcases not_or.mp h1' with ⟨hlo, hhi⟩
    rcases h01 with hx | hx
    · exact hlo hx
    · rcases not_or.mp h02 with ⟨_, hhi2⟩
      have hr2 : ((s.root2 r : ℝ) : WithTop ℝ) < ((s.root1 r : ℝ) : WithTop ℝ) :=
        lt_of_le_of_lt (not_lt.mp hhi2) hx
      exact absurd (WithTop.coe_le_coe.mpr h12) (not_le.mpr hr2)
  · rw [hrec0, hrec']

/-- The record the scene fold returns has `t` at most the current
shrinking bound, provided the best-so-far record already does. -/
theorem World.hitAux_t_le (r : Ray) (t_min : ℝ) (objs : List Sphere) :
    ∀ (c : WithTop ℝ) (best : Option HitRecord) (rec : HitRecord),
      (∀ recb, best = some recb → ((recb.t : ℝ) : WithTop ℝ) ≤ c) →
      World.hitAux r t_min objs c best = some rec →
      ((rec.t : ℝ) : WithTop ℝ) ≤ c := by
  induction objs with
  | nil =>
      intro c best rec hbest h
      simp only [World.hitAux] at h
      exact hbest rec h
  | cons s rest ih =>
      intro c best rec hbest h
      simp only [World.hitAux] at h
      cases hs : s.hit r t_min c with
      | some rec0 =>
          simp only [hs] at h
          have h0 := (Sphere.hit_t_mem hs).2
          have hr := ih _ _ rec
            (fun recb hb => by cases Option.some.inj hb; exact le_refl _) h
          exact le_trans hr h0
      | none =>
          simp only [hs] at h
          exact ih c best rec hbest h

/-- Minimality of the scene fold: the returned record's `t` is at most
the `t` of any member's own hit over the full original interval. -/
theorem World.hitAux_min (r : Ray) (t_min : ℝ) (t_max : WithTop ℝ)
    (objs : List Sphere) :
    ∀ (c : WithTop ℝ) (best : Option HitRecord) (rec : HitRecord),
      c ≤ t_max →
      (∀ recb, best = some recb → ((recb.t : ℝ) : WithTop ℝ) ≤ c) →
      World.hitAux r t_min objs c best = some rec →
      ∀ s ∈ objs, ∀ rec', s.hit r t_min t_max = some rec' → rec.t ≤ rec'.t := by
  induction objs with
  | nil =>
      intro c best rec _ _ _ s hs
      exact absurd hs (List.not_mem_nil s)
  | cons s0 rest ih =>
      intro c best rec hct hbest h s hs rec' hrec'
      simp only [World.hitAux] at h
      rcases List.mem_cons.mp hs with rfl | hmem
      · cases hq : s.hit r t_min c with
        | some rec0 =>
            simp only [hq] at h
            have heq : rec0 = rec' := Sphere.hit_agree hct hq hrec'
            have hle := World.hitAux_t_le r t_min rest _ _ rec
              (fun recb hb => by cases Option.some.inj hb; exact le_refl _) h
            rw [← heq]
            exact WithTop.coe_le_coe.mp hle
        | none =>
            simp only [hq] at h
            by_cases hcase : ((rec'.t : ℝ) : WithTop ℝ) ≤ c
            · have hcontra := Sphere.hit_shrink hrec' hcase hct
              rw [hq] at hcontra
              exact absurd hcontra (by simp)
            · push_neg at hcase
              have hle := World.hitAux_t_le r t_min rest c best rec hbest h
              exact le_of_lt (WithTop.coe_lt_coe.mp (lt_of_le_of_lt hle hcase))
      · cases hq : s0.hit r t_min c with
        | some rec0 =>
            simp only [hq] at h
            have h0 := (Sphere.hit_t_mem hq).2
            exact ih _ _ rec (le_trans h0 hct)
              (fun recb hb => by cases Option.some.inj hb; exact le_refl _)
              h s hmem rec' hrec'
        | none =>
            simp only [hq] at h
            exact ih c best rec hct hbest h s hmem rec' hrec'

theorem exS1_a : exS1.a exRay = 1 := by
  rw [Sphere.a_eq]
  norm_num [exS1, exRay]

theorem exS1_half_b : exS1.half_b exRay = -2 := by
  norm_num [Sphere.half_b, Sphere.oc, exS1, exRay]

theorem exS1_disc : exS1.discriminant exRay = 1 := by
  have hc : exS1.c exRay = 3 := by
    rw [Sphere.c_eq]
    norm_num [Sphere.oc, exS1, exRay]
  rw [Sphere.discriminant, exS1_a, exS1_half_b, hc]
  norm_num

theorem exS1_root1 : exS1.root1 exRay = 1 := by
  rw [Sphere.root1, exS1_a, exS1_half_b, exS1_disc, Real.sqrt_one]
  norm_num

/-- Concrete evaluation: the front sphere is hit at `t = 1`. -/
theorem exS1_hit : exS1.hit exRay 0 ((100 : ℝ) : WithTop ℝ) = some exRec1 := by
  have hd : ¬exS1.discriminant exRay < 0 := by
    rw [exS1_disc]; norm_num
  have h1 : ¬(exS1.root1 exRay < 0 ∨
      ((100 : ℝ) : WithTop ℝ) < ((exS1.root1 exRay : ℝ) : WithTop ℝ)) := by
    rw [not_or, exS1_root1]
    refine ⟨by norm_num, ?_⟩
    rw [not_lt, WithTop.coe_le_coe]
    norm_num
  rw [Sphere.hit_of_root1 hd h1, exS1_root1]
  congr 1
  unfold Sphere.mkRec HitRecord.set_face_normal Ray.at
  simp [exS1, exRay, exRec1, exMat, decide_eq_true_eq]
  norm_num

theorem exS2_a : exS2.a exRay = 1 := by
  rw [Sphere.a_eq]
  norm_num [exS2, exRay]

theorem exS2_half_b : exS2.half_b exRay = -5 := by
  norm_num [Sphere.half_b, Sphere.oc, exS2, exRay]

theorem exS2_disc : exS2.discriminant exRay = 1 := by
  have hc : exS2.c exRay = 24 := by
    rw [Sphere.c_eq]
    norm_num [Sphere.oc, exS2, exRay]
  rw [Sphere.discriminant, exS2_a, exS2_half_b, hc]
  norm_num

theorem exS2_root1 : exS2.root1 exRay = 4 := by
  rw [Sphere.root1, exS2_a, exS2_half_b, exS2_disc, Real.sqrt_one]
  norm_num

/-- Concrete evaluation: the rear sphere is hit at `t = 4`. -/
theorem exS2_hit : exS2.hit exRay 0 ((100 : ℝ) : WithTop ℝ) = some exRec2 := by
  have hd : ¬exS2.discriminant exRay < 0 := by
    rw [exS2_disc]; norm_num
  have h1 : ¬(exS2.root1 exRay < 0 ∨
      ((100 : ℝ) : WithTop ℝ) < ((exS2.root1 exRay : ℝ) : WithTop ℝ)) := by
    rw [not_or, exS2_root1]
    refine ⟨by norm_num, ?_⟩
    rw [not_lt, WithTop.coe_le_coe]
    norm_num
  rw [Sphere.hit_of_root1 hd h1, exS2_root1]
  congr 1
  unfold Sphere.mkRec HitRecord.set_face_normal Ray.at
  simp [exS2, exRay, exRec2, exMat, decide_eq_true_eq]
  norm_num

/-- C1: For every sphere (any signed radius), ray, and bounds
`t_min ≤ t_max`, `Sphere::hit` returns `none` when the discriminant
`half_b² - a·c` is negative; otherwise it returns the record for the
smaller root `(-half_b - √d)/a` if that root lies in `[t_min, t_max]`,
else for the larger root `(-half_b + √d)/a` if that lies in
`[t_min, t_max]`, else `none`; and every returned record's `t` lies in
`[t_min, t_max]`. -/
theorem sphere_hit_root_selection (s : Sphere) (r : Ray) (t_min t_max : ℝ)
    (hbounds : t_min ≤ t_max) :
    (s.discriminant r < 0 → s.hit r t_min ((t_max : ℝ) : WithTop ℝ) = none) ∧
    (0 ≤ s.discriminant r →
      (t_min ≤ s.root1 r ∧ s.root1 r ≤ t_max →
        s.hit r t_min ((t_max : ℝ) : WithTop ℝ) = some (s.mkRec r (s.root1 r))) ∧
      (¬(t_min ≤ s.root1 r ∧ s.root1 r ≤ t_max) →
        (t_min ≤ s.root2 r ∧ s.root2 r ≤ t_max →
          s.hit r t_min ((t_max : ℝ) : WithTop ℝ)
            = some (s.mkRec r (s.root2 r))) ∧
        (¬(t_min ≤ s.root2 r ∧ s.root2 r ≤ t_max) →
          s.hit r t_min ((t_max : ℝ) : WithTop ℝ) = none))) ∧
    (∀ rec, s.hit r t_min ((t_max : ℝ) : WithTop ℝ) = some rec →
      t_min ≤ rec.t ∧ rec.t ≤ t_max) := by
  have hconv : ∀ x : ℝ,
      (x < t_min ∨ ((t_max : ℝ) : WithTop ℝ) < ((x : ℝ) : WithTop ℝ))
        ↔ ¬(t_min ≤ x ∧ x ≤ t_max) := by
    intro x
    rw [not_and_or, not_le, not_le, WithTop.coe_lt_coe]
  refine ⟨fun hd => Sphere.hit_of_disc_neg _ _ hd, fun hd0 => ⟨?_, ?_⟩,
    fun rec h => ?_⟩
  · rintro ⟨hlo, hhi⟩
    exact Sphere.hit_of_root1 (not_lt.mpr hd0)
      (not_or.mpr ⟨not_lt.mpr hlo, not_lt.mpr (WithTop.coe_le_coe.mpr hhi)⟩)
  · intro hn1
    have h1 := (hconv (s.root1 r)).mpr hn1
    refine ⟨?_, ?_⟩
    · rintro ⟨hlo2, hhi2⟩
      exact Sphere.hit_of_root2 (not_lt.mpr hd0) h1
        (not_or.mpr ⟨not_lt.mpr hlo2, not_lt.mpr (WithTop.coe_le_coe.mpr hhi2)⟩)
    · intro hn2
      exact Sphere.hit_of_no_root h1 ((hconv (s.root2 r)).mpr hn2)
  · have hm := Sphere.hit_t_mem h
    exact ⟨hm.1, WithTop.coe_le_coe.mp hm.2⟩

/-- Witness for C1 at the concrete sphere `exS1`, ray `exRay` and
interval `[0, 100]`. -/
theorem sphere_hit_root_selection_witness :
    (0 : ℝ) ≤ 100 ∧
    ((exS1.discriminant exRay < 0 →
        exS1.hit exRay 0 ((100 : ℝ) : WithTop ℝ) = none) ∧
     (0 ≤ exS1.discriminant exRay →
       (0 ≤ exS1.root1 exRay ∧ exS1.root1 exRay ≤ 100 →
         exS1.hit exRay 0 ((100 : ℝ) : WithTop ℝ)
           = some (exS1.mkRec exRay (exS1.root1 exRay))) ∧
       (¬(0 ≤ exS1.root1 exRay ∧ exS1.root1 exRay ≤ 100) →
         (0 ≤ exS1.root2 exRay ∧ exS1.root2 exRay ≤ 100 →
           exS1.hit exRay 0 ((100 : ℝ) : WithTop ℝ)
             = some (exS1.mkRec exRay (exS1.root2 exRay))) ∧
         (¬(0 ≤ exS1.root2 exRay ∧ exS1.root2 exRay ≤ 100) →
           exS1.hit exRay 0 ((100 : ℝ) : WithTop ℝ) = none))) ∧
     (∀ rec, exS1.hit exRay 0 ((100 : ℝ) : WithTop ℝ) = some rec →
       0 ≤ rec.t ∧ rec.t ≤ 100)) :=
  ⟨by norm_num, sphere_hit_root_selection exS1 exRay 0 100 (by norm_num)⟩

/-- C2: the radiance estimator called with depth 0 returns exactly
black `(0,0,0)` for every ray, every scene, and every random source —
the scene and materials are never queried. -/
theorem ray_color_depth_zero (rand : ℕ → ScatterRand) (r : Ray) (w : World) :
    ray_color rand r w 0 = ⟨0, 0, 0⟩ := rfl

/-- C3: every record produced by `Sphere::hit` has a stored normal that
opposes the incoming ray, and its `front_face` flag is true exactly
when the incoming direction and the outward normal
`(p - center) / radius` have negative dot product. -/
theorem sphere_hit_normal_invariant (s : Sphere) (r : Ray) (t_min : ℝ)
    (t_max : WithTop ℝ) (rec : HitRecord) (h : s.hit r t_min t_max = some rec) :
    r.direction.dot rec.normal ≤ 0 ∧
    (rec.front_face = true ↔
      r.direction.dot ((rec.p - s.center) / s.radius) < 0) := by
  obtain ⟨_, hcase⟩ := Sphere.hit_some_cases h
  have main : ∀ root : ℝ, r.direction.dot (s.mkRec r root).normal ≤ 0 ∧
      ((s.mkRec r root).front_face = true ↔
        r.direction.dot (((s.mkRec r root).p - s.center) / s.radius) < 0) := by
    intro root
    constructor
    · exact HitRecord.set_face_normal_opposes _ r _
    · rw [Sphere.mkRec_front_face, Sphere.mkRec_p, decide_eq_true_eq]
  rcases hcase with ⟨hrec, _⟩ | ⟨hrec, _, _⟩ <;> (subst hrec; exact main _)

/-- Witness for C3 at the concrete hit of `exS1` by `exRay`. -/
theorem sphere_hit_normal_invariant_witness :
    exS1.hit exRay 0 ((100 : ℝ) : WithTop ℝ) = some exRec1 ∧
    (exRay.direction.dot exRec1.normal ≤ 0 ∧
      (exRec1.front_face = true ↔
        exRay.direction.dot ((exRec1.p - exS1.center) / exS1.radius) < 0)) :=
  ⟨exS1_hit, sphere_hit_normal_invariant exS1 exRay 0 _ exRec1 exS1_hit⟩

/-- C4: the scene's hit returns the member intersection with the
smallest valid `t` (no member has a valid hit strictly closer), and for
two overlapping spheres pierced by one ray the record with strictly
smaller `t` is returned regardless of insertion order. -/
theorem scene_hit_closest (r : Ray) (t_min : ℝ) (t_max : WithTop ℝ) :
    (∀ (w : World) (rec : HitRecord), World.hit w r t_min t_max = some rec →
      ∀ s ∈ w, ∀ rec', s.hit r t_min t_max = some rec' → rec.t ≤ rec'.t) ∧
    (∀ (s1 s2 : Sphere) (rec1 rec2 : HitRecord),
      s1.hit r t_min t_max = some rec1 → s2.hit r t_min t_max = some rec2 →
      rec1.t < rec2.t →
      World.hit [s1, s2] r t_min t_max = some rec1 ∧
      World.hit [s2, s1] r t_min t_max = some rec1) := by
  constructor
  · intro w rec h s hs rec' hrec'
    exact World.hitAux_min r t_min t_max w t_max none rec le_rfl
      (fun recb hb => absurd hb (by simp)) h s hs rec' hrec'
  · intro s1 s2 rec1 rec2 h1 h2 hlt
    have hn : s2.hit r t_min ((rec1.t : ℝ) : WithTop ℝ) = none :=
      Sphere.hit_none_below h2 (WithTop.coe_lt_coe.mpr hlt) (Sphere.hit_t_mem h1).2
    have hs : s1.hit r t_min ((rec2.t : ℝ) : WithTop ℝ) = some rec1 :=
      Sphere.hit_shrink h1 (WithTop.coe_le_coe.mpr (le_of_lt hlt))
        (Sphere.hit_t_mem h2).2
    constructor
    · simp only [World.hit, World.hitAux, h1, hn]
    · simp only [World.hit, World.hitAux, h2, hs]

/-- Witness for C4: the two concrete overlapping-ray spheres `exS1`
(`t = 1`) and `exS2` (`t = 4`), in both insertion orders. -/
theorem scene_hit_closest_witness :
    exS1.hit exRay 0 ((100 : ℝ) : WithTop ℝ) = some exRec1 ∧
    exS2.hit exRay 0 ((100 : ℝ) : WithTop ℝ) = some exRec2 ∧
    exRec1.t < exRec2.t ∧
    World.hit [exS1, exS2] exRay 0 ((100 : ℝ) : WithTop ℝ) = some exRec1 ∧
    World.hit [exS2, exS1] exRay 0 ((100 : ℝ) : WithTop ℝ) = some exRec1 := by
  have hlt : exRec1.t < exRec2.t := by norm_num [exRec1, exRec2]
  obtain ⟨ha, hb⟩ := (scene_hit_closest exRay 0 ((100 : ℝ) : WithTop ℝ)).2
    exS1 exS2 exRec1 exRec2 exS1_hit exS2_hit hlt
  exact ⟨exS1_hit, exS2_hit, hlt, ha, hb⟩

/-- C5: `Dielectric::scatter` always returns `Some` (never absorbs),
and the returned attenuation is exactly `(1,1,1)`, in both the reflect
and the refract branch. -/
theorem dielectric_always_scatters (ir : ℝ) (rand : ScatterRand) (r_in : Ray)
    (rec : HitRecord) :
    ∃ scattered : Ray,
      (Material.dielectric ir).scatter rand r_in rec
        = some (⟨1, 1, 1⟩, scattered) :=
  ⟨_, rfl⟩

/-- C10: `Vec3::refract` is total: the cosine is clamped to at most 1,
the square-root argument is the absolute value of `1 - |r_out_perp|²`
and hence nonnegative (so the square root is the genuine square root
even under total-internal-reflection conditions), and the result is the
well-defined vector `r_out_perp + r_out_parallel`. -/
theorem refract_total (v n : Vec3) (eta_rat : ℝ) :
    min (((-1 : ℝ) • v).dot n) 1 ≤ 1 ∧
    0 ≤ |1 - (eta_rat • (v + (min (((-1 : ℝ) • v).dot n) 1) • n)).length ^ 2| ∧
    Real.sqrt
        |1 - (eta_rat • (v + (min (((-1 : ℝ) • v).dot n) 1) • n)).length ^ 2| ^ 2
      = |1 - (eta_rat • (v + (min (((-1 : ℝ) • v).dot n) 1) • n)).length ^ 2| ∧
    Vec3.refract v n eta_rat
      = eta_rat • (v + (min (((-1 : ℝ) • v).dot n) 1) • n)
        + (-(Real.sqrt
            |1 - (eta_rat • (v + (min (((-1 : ℝ) • v).dot n) 1) • n)).length ^ 2|)) • n :=
  ⟨min_le_right _ _, abs_nonneg _, Real.sq_sqrt (abs_nonneg _), rfl⟩

/-- Reflection by a unit normal preserves the self dot product. -/
theorem Vec3.reflect_dot_self (v n : Vec3) (hnn : n.dot n = 1) :
    (v.reflect n).dot (v.reflect n) = v.dot v := by
  rcases v with ⟨a, b, c⟩
  rcases n with ⟨p, q, w⟩
  simp only [Vec3.reflect, Vec3.dot_def, Vec3.sub_def, Vec3.smul_def] at hnn ⊢
  linear_combination (4 * (a * p + b * q + c * w) ^ 2) * hnn

/-- Normalizing after reflecting by a unit normal equals reflecting the
normalized vector: reflection is linear and preserves length. -/
theorem Vec3.normalized_reflect (v n : Vec3) (hv : v ≠ 0) (hn : n.length = 1) :
    (v.reflect n).normalized = v.normalized.reflect n := by
  have hnn : n.dot n = 1 := by
    have h2 := Vec3.length_sq n
    rw [hn] at h2
    simpa using h2.symm
  have hlen : (v.reflect n).length = v.length := by
    unfold Vec3.length
    rw [Vec3.reflect_dot_self v n hnn]
  have hL : v.length ≠ 0 := ne_of_gt (v.length_pos hv)
  unfold Vec3.normalized
  rw [hlen]
  rcases v with ⟨a, b, c⟩
  rcases n with ⟨p, q, w⟩
  simp only [Vec3.reflect, Vec3.dot_def, Vec3.sub_def, Vec3.smul_def,
    Vec3.div_def, Vec3.mk.injEq]
  refine ⟨?_, ?_, ?_⟩ <;> (field_simp; try ring)

/-- C6: `Metal::scatter` returns `Some` exactly when the fuzzed
scattered direction has positive dot product with the stored normal
(otherwise the ray is absorbed), and on success the attenuation is the
metal's albedo and the outgoing ray is the fuzzed reflection from the
hit point. -/
theorem metal_scatter_condition (albedo : Vec3) (fuzz : ℝ) (rand : ScatterRand)
    (r_in : Ray) (rec : HitRecord) :
    ((∃ out, (Material.metal albedo fuzz).scatter rand r_in rec = some out) ↔
      0 < ((r_in.direction.reflect rec.normal).normalized
            + fuzz • rand.unitSphere).dot rec.normal) ∧
    (∀ out, (Material.metal albedo fuzz).scatter rand r_in rec = some out →
      out.1 = albedo ∧
      out.2 = ⟨rec.p, (r_in.direction.reflect rec.normal).normalized
                + fuzz • rand.unitSphere⟩) := by
  have hdef : (Material.metal albedo fuzz).scatter rand r_in rec
      = if ((r_in.direction.reflect rec.normal).normalized
            + fuzz • rand.unitSphere).dot rec.normal > 0 then
          some (albedo, ⟨rec.p, (r_in.direction.reflect rec.normal).normalized
            + fuzz • rand.unitSphere⟩)
        else none := rfl
  by_cases h : 0 < ((r_in.direction.reflect rec.normal).normalized
      + fuzz • rand.unitSphere).dot rec.normal
  · rw [hdef, if_pos h]
    refine ⟨⟨fun _ => h, fun _ => ⟨_, rfl⟩⟩, ?_⟩
    intro out hout
    cases Option.some.inj hout
    exact ⟨rfl, rfl⟩
  · rw [hdef, if_neg h]
    refine ⟨⟨?_, fun hh => absurd hh h⟩, ?_⟩
    · rintro ⟨out, hout⟩
      exact absurd hout (by simp)
    · intro out hout
      exact absurd hout (by simp)

/-- Witness for C6: a head-on reflection off `exRec1` with zero fuzz
scatters, with the fuzzed direction's dot product evaluating to 1. -/
theorem metal_scatter_condition_witness :
    0 < ((exRay.direction.reflect exRec1.normal).normalized
          + (0 : ℝ) • (⟨⟨0, 0, 0⟩, 0⟩ : ScatterRand).unitSphere).dot exRec1.normal ∧
    ∃ out, (Material.metal ⟨0.8, 0.6, 0.2⟩ 0).scatter ⟨⟨0, 0, 0⟩, 0⟩ exRay exRec1
      = some out := by
  have hdot : ((exRay.direction.reflect exRec1.normal).normalized
      + (0 : ℝ) • (⟨⟨0, 0, 0⟩, 0⟩ : ScatterRand).unitSphere).dot exRec1.normal
      = 1 := by
    have hrefl : exRay.direction.reflect exRec1.normal = ⟨0, 0, 1⟩ := by
      unfold Vec3.reflect
      norm_num [exRay, exRec1]
    rw [hrefl]
    unfold Vec3.normalized Vec3.length
    norm_num [exRec1, Real.sqrt_one]
  have h : 0 < ((exRay.direction.reflect exRec1.normal).normalized
      + (0 : ℝ) • (⟨⟨0, 0, 0⟩, 0⟩ : ScatterRand).unitSphere).dot exRec1.normal := by
    rw [hdot]; norm_num
  exact ⟨h, (metal_scatter_condition ⟨0.8, 0.6, 0.2⟩ 0 ⟨⟨0, 0, 0⟩, 0⟩
    exRay exRec1).1.mpr h⟩

/-- C7: for a nonzero incoming direction and a unit normal, Metal's
reflect-then-normalize equals the spec's reflect of the normalized
direction, so Metal's outgoing direction equals
`reflect(normalize(incoming.direction), normal) + fuzz · p`. -/
theorem metal_direction_refinement (albedo : Vec3) (fuzz : ℝ)
    (rand : ScatterRand) (r_in : Ray) (rec : HitRecord)
    (hv : r_in.direction ≠ 0) (hn : rec.normal.length = 1) :
    (r_in.direction.reflect rec.normal).normalized
      = (r_in.direction.normalized).reflect rec.normal ∧
    ∀ out, (Material.metal albedo fuzz).scatter rand r_in rec = some out →
      out.2.direction = metalSpecDir r_in rec.normal fuzz rand.unitSphere := by
  have key := Vec3.normalized_reflect r_in.direction rec.normal hv hn
  refine ⟨key, ?_⟩
  intro out hout
  have hdef : (Material.metal albedo fuzz).scatter rand r_in rec
      = if ((r_in.direction.reflect rec.normal).normalized
            + fuzz • rand.unitSphere).dot rec.normal > 0 then
          some (albedo, ⟨rec.p, (r_in.direction.reflect rec.normal).normalized
            + fuzz • rand.unitSphere⟩)
        else none := rfl
  rw [hdef] at hout
  split_ifs at hout with hc
  · cases Option.some.inj hout
    unfold metalSpecDir
    rw [key]

/-- Witness for C7 at the concrete head-on reflection. -/
theorem metal_direction_refinement_witness :
    exRay.direction ≠ 0 ∧ exRec1.normal.length = 1 ∧
    ((exRay.direction.reflect exRec1.normal).normalized
       = (exRay.direction.normalized).reflect exRec1.normal ∧
     ∀ out, (Material.metal ⟨0.8, 0.6, 0.2⟩ 0).scatter
         ⟨⟨0, 0, 0⟩, 0⟩ exRay exRec1 = some out →
       out.2.direction
         = metalSpecDir exRay exRec1.normal 0
             (⟨⟨0, 0, 0⟩, 0⟩ : ScatterRand).unitSphere) := by
  have hv : exRay.direction ≠ 0 := by
    simp only [exRay, Vec3.zero_def, ne_eq, Vec3.mk.injEq]
    norm_num
  have hn : exRec1.normal.length = 1 := by
    have hd : exRec1.normal.dot exRec1.normal = 1 := by norm_num [exRec1]
    unfold Vec3.length
    rw [hd, Real.sqrt_one]
  exact ⟨hv, hn, metal_direction_refinement ⟨0.8, 0.6, 0.2⟩ 0
    ⟨⟨0, 0, 0⟩, 0⟩ exRay exRec1 hv hn⟩

/-- Uniqueness of Euclidean decomposition over `ℕ`: quotient and
remainder below the divisor are determined. -/
theorem mul_add_lt_unique {d q r q' r' : ℕ} (hr : r < d) (hr' : r' < d)
    (h : q * d + r = q' * d + r') : q = q' ∧ r = r' := by
  have hd : 0 < d := lt_of_le_of_lt (Nat.zero_le r) hr
  have e1 : (r + d * q) / d = q := by
    rw [Nat.add_mul_div_left _ _ hd, Nat.div_eq_of_lt hr, Nat.zero_add]
  have e2 : (r' + d * q') / d = q' := by
    rw [Nat.add_mul_div_left _ _ hd, Nat.div_eq_of_lt hr', Nat.zero_add]
  have hcomm : r + d * q = r' + d * q' := by
    rw [Nat.mul_comm d q, Nat.mul_comm d q', Nat.add_comm r, Nat.add_comm r']
    exact h
  have hq : q = q' := by
    rw [← e1, ← e2, hcomm]
  subst hq
  refine ⟨rfl, ?_⟩
  have h' : q * d + r = q * d + r' := h
  exact Nat.add_left_cancel h'

/-- C8: the scheduler's framebuffer index map
`(height-1-y)·width·3 + x·3 + ch` is injective over `(y, x, ch)`, always
in bounds (`< width·height·3`), covers every buffer cell exactly once,
and maps the last sampled row `y = height-1` to output row 0 (vertical
flip). -/
theorem framebuffer_index_bijection (height width : ℕ) :
    (∀ y x ch, y < height → x < width → ch < 3 →
      pixelIndex height width y x ch < width * height * 3) ∧
    (∀ y x ch y' x' ch', y < height → x < width → ch < 3 →
      y' < height → x' < width → ch' < 3 →
      pixelIndex height width y x ch = pixelIndex height width y' x' ch' →
      y = y' ∧ x = x' ∧ ch = ch') ∧
    (∀ n, n < width * height * 3 →
      ∃ y x ch, y < height ∧ x < width ∧ ch < 3 ∧
        pixelIndex height width y x ch = n) ∧
    (∀ x ch, pixelIndex height width (height - 1) x ch = x * 3 + ch) := by
  refine ⟨?_, ?_, ?_, ?_⟩
  · intro y x ch hy hx hch
    unfold pixelIndex
    calc (height - y - 1) * width * 3 + x * 3 + ch
        < (height - y - 1) * width * 3 + ((x + 1) * 3) := by omega
      _ ≤ (height - y - 1) * width * 3 + width * 3 := by
            have h1 : (x + 1) * 3 ≤ width * 3 := Nat.mul_le_mul_right 3 (by omega)
            omega
      _ = ((height - y - 1) + 1) * width * 3 := by ring
      _ ≤ height * width * 3 := by
            have h2 : (height - y - 1) + 1 ≤ height := by omega
            exact Nat.mul_le_mul_right 3 (Nat.mul_le_mul_right width h2)
      _ = width * height * 3 := by ring
  · intro y x ch y' x' ch' hy hx hch hy' hx' hch' heq
    unfold pixelIndex at heq
    have h3 : x * 3 + ch < width * 3 := by
      have h1 : (x + 1) * 3 ≤ width * 3 := Nat.mul_le_mul_right 3 (by omega)
      omega
    have h3' : x' * 3 + ch' < width * 3 := by
      have h1 : (x' + 1) * 3 ≤ width * 3 := Nat.mul_le_mul_right 3 (by omega)
      omega
    have heq' : (height - y - 1) * (width * 3) + (x * 3 + ch)
        = (height - y' - 1) * (width * 3) + (x' * 3 + ch') := by
      calc (height - y - 1) * (width * 3) + (x * 3 + ch)
          = (height - y - 1) * width * 3 + x * 3 + ch := by ring
        _ = (height - y' - 1) * width * 3 + x' * 3 + ch' := heq
        _ = (height - y' - 1) * (width * 3) + (x' * 3 + ch') := by ring
    obtain ⟨hq, hr⟩ := mul_add_lt_unique h3 h3' heq'
    refine ⟨by omega, by omega, by omega⟩
  · intro n hn
    have hw : 0 < width := by
      rcases Nat.eq_zero_or_pos width with h0 | h
      · subst h0; simp at hn
      · exact h
    have hdpos : 0 < width * 3 := by omega
    have hqlt : n / (width * 3) < height := by
      rw [Nat.div_lt_iff_lt_mul hdpos]
      calc n < width * height * 3 := hn
        _ = height * (width * 3) := by ring
    have hh : 0 < height := lt_of_le_of_lt (Nat.zero_le _) hqlt
    have hyb : ∀ q : ℕ, q < height → height - 1 - q < height := by
      intro q hq; omega
    have hrow : ∀ q : ℕ, q < height → height - (height - 1 - q) - 1 = q := by
      intro q hq; omega
    refine ⟨height - 1 - n / (width * 3), (n % (width * 3)) / 3,
      n % (width * 3) % 3, hyb _ hqlt, ?_, ?_, ?_⟩
    · rw [Nat.div_lt_iff_lt_mul (by norm_num : (0 : ℕ) < 3)]
      exact Nat.mod_lt n hdpos
    · exact Nat.mod_lt _ (by norm_num)
    · unfold pixelIndex
      rw [hrow _ hqlt]
      have e1 : 3 * (n % (width * 3) / 3) + n % (width * 3) % 3 = n % (width * 3) :=
        Nat.div_add_mod _ 3
      have e2 : width * 3 * (n / (width * 3)) + n % (width * 3) = n :=
        Nat.div_add_mod n (width * 3)
      calc n / (width * 3) * width * 3 + n % (width * 3) / 3 * 3 + n % (width * 3) % 3
          = width * 3 * (n / (width * 3))
            + (3 * (n % (width * 3) / 3) + n % (width * 3) % 3) := by ring
        _ = width * 3 * (n / (width * 3)) + n % (width * 3) := by rw [e1]
        _ = n := e2
  · intro x ch
    unfold pixelIndex
    have h0 : height - (height - 1) - 1 = 0 := by omega
    rw [h0]
    omega

/-- Witness for C8 at a 2-row, 3-column image: the pixel `(x,y) = (2,1)`
channel 2 lands at the last buffer cell, index 8, in bounds. -/
theorem framebuffer_index_bijection_witness :
    pixelIndex 2 3 1 2 2 < 3 * 2 * 3 ∧ pixelIndex 2 3 1 2 2 = 8 :=
  ⟨(framebuffer_index_bijection 2 3).1 1 2 2 (by norm_num) (by norm_num)
    (by norm_num), rfl⟩

/-- Counterexample to C9 as stated: at `image_width = 2`, the column
`x = 1 < 2` with jitter `rand_u = 1/2 ∈ [0,1)` yields
`u = (1 + 1/2)/(2-1) = 3/2 > 1`, so `u` does not lie in `[0,1]`. -/
theorem sample_u_exceeds_one :
    (1 : ℕ) < 2 ∧ (0 : ℝ) ≤ 1 / 2 ∧ (1 / 2 : ℝ) < 1 ∧
    ¬(0 ≤ sample_u 2 1 (1 / 2) ∧ sample_u 2 1 (1 / 2) ≤ 1) := by
  refine ⟨by norm_num, by norm_num, by norm_num, ?_⟩
  rintro ⟨-, hle⟩
  norm_num [sample_u] at hle

/-- C9 (amended): for `image_width, image_height ≥ 2`, pixel coordinates
in range and jitter in `[0,1)`, the values `u` and `v` passed to
`Camera::get_ray` lie in `[0, 1 + 1/(image_width-1))` and
`[0, 1 + 1/(image_height-1))` respectively (they can slightly exceed 1
at the last column/row). -/
theorem sample_uv_range (width height x y : ℕ) (ru rv : ℝ)
    (hw : 1 < width) (hh : 1 < height) (hx : x < width) (hy : y < height)
    (hru0 : 0 ≤ ru) (hru1 : ru < 1) (hrv0 : 0 ≤ rv) (hrv1 : rv < 1) :
    0 ≤ sample_u width x ru ∧
    sample_u width x ru < 1 + 1 / ((width : ℝ) - 1) ∧
    0 ≤ sample_v height y rv ∧
    sample_v height y rv < 1 + 1 / ((height : ℝ) - 1) := by
  have main : ∀ (w n : ℕ) (j : ℝ), 1 < w → n < w → 0 ≤ j → j < 1 →
      0 ≤ ((n : ℝ) + j) / ((w - 1 : ℕ) : ℝ) ∧
      ((n : ℝ) + j) / ((w - 1 : ℕ) : ℝ) < 1 + 1 / ((w : ℝ) - 1) := by
    intro w n j hw1 hnw hj0 hj1
    have h1w : (1 : ℕ) ≤ w := le_of_lt hw1
    have hcast : ((w - 1 : ℕ) : ℝ) = (w : ℝ) - 1 := by
      rw [Nat.cast_sub h1w, Nat.cast_one]
    have hdpos : (0 : ℝ) < (w : ℝ) - 1 := by
      have hwr : (1 : ℝ) < (w : ℝ) := by exact_mod_cast hw1
      linarith
    rw [hcast]
    constructor
    · exact div_nonneg (add_nonneg (Nat.cast_nonneg n) hj0) (le_of_lt hdpos)
    · have hnle : (n : ℝ) ≤ (w : ℝ) - 1 := by
        have hn1 : n ≤ w - 1 := by omega
        calc (n : ℝ) ≤ ((w - 1 : ℕ) : ℝ) := by exact_mod_cast hn1
          _ = (w : ℝ) - 1 := hcast
      have hnum : (n : ℝ) + j < (w : ℝ) := by linarith
      have hstep : ((n : ℝ) + j) / ((w : ℝ) - 1) < (w : ℝ) / ((w : ℝ) - 1) :=
        (div_lt_div_right hdpos).mpr hnum
      have hrepr : (w : ℝ) / ((w : ℝ) - 1) = 1 + 1 / ((w : ℝ) - 1) := by
        field_simp
      rw [← hrepr]
      exact hstep
  unfold sample_u sample_v
  obtain ⟨h1, h2⟩ := main width x ru hw hx hru0 hru1
  obtain ⟨h3, h4⟩ := main height y rv hh hy hrv0 hrv1
  exact ⟨h1, h2, h3, h4⟩

/-- Witness for the amended C9 at a 3×3 image, `(x, y) = (2, 1)` with
jitter `(1/2, 1/4)`. -/
theorem sample_uv_range_witness :
    (1 : ℕ) < 3 ∧ (2 : ℕ) < 3 ∧ (1 : ℕ) < 3 ∧
    (0 : ℝ) ≤ 1 / 2 ∧ (1 / 2 : ℝ) < 1 ∧ (0 : ℝ) ≤ 1 / 4 ∧ (1 / 4 : ℝ) < 1 ∧
    (0 ≤ sample_u 3 2 (1 / 2) ∧
     sample_u 3 2 (1 / 2) < 1 + 1 / ((3 : ℝ) - 1) ∧
     0 ≤ sample_v 3 1 (1 / 4) ∧
     sample_v 3 1 (1 / 4) < 1 + 1 / ((3 : ℝ) - 1)) :=
  ⟨by norm_num, by norm_num, by norm_num, by norm_num, by norm_num,
   by norm_num, by norm_num,
   sample_uv_range 3 3 2 1 (1 / 2) (1 / 4) (by norm_num) (by norm_num)
     (by norm_num) (by norm_num) (by norm_num) (by norm_num) (by norm_num)
     (by norm_num)⟩

end RT
